import Mathlib

/-!
Verification of the NewsGenie news-aggregation pipeline.

The Python modules under src/ are shallowly embedded here:

* `Article` models the article dict produced by the fetch adapters
  (src/news_fetcher.py); a field that is absent in the dict is modelled
  as the empty string, matching the pervasive `article.get(key, '')`
  access pattern of the code.
* `categorize` and friends embed ArticleCategorizer (src/categorizer.py).
* `dedupAux` embeds NewsFetcher._deduplicate, `fetchAllPost` the
  deterministic tail of NewsFetcher.fetch_all (dedup, sort, truncate).
* `analyzeSentiment` embeds SentimentAnalyzer.analyze_sentiment
  (src/sentiment_analyzer.py); the TextBlob polarity/subjectivity
  estimator is an external library and enters as parameters.
* `extractKeywords` embeds TrendAnalyzer.extract_keywords
  (src/trend_analyzer.py).
* `generateResponse` embeds ConversationalAgent._generate_response
  (src/conversational_agent.py); its argument is the case-folded
  utterance, exactly as produced by process_query.
-/

namespace NewsGenie

/-- The article record; string fields default to the empty string when the
underlying dict key is missing, mirroring `article.get(k, '')`. -/
structure Article where
  title : String := ""
  summary : String := ""
  url : String := ""
  source : String := ""
  published : String := ""
  image : String := ""
  author : String := ""
  category : String := ""
  deriving DecidableEq, Repr

/-! ### Character classes and low-level string scanning

Python regex `\b` separates word characters `[a-zA-Z0-9_]` from the rest;
`\s` is ASCII whitespace (we model the ASCII fragment the pipeline uses). -/

def isWordChar (c : Char) : Bool :=
  c.isAlpha || c.isDigit || c == '_'

def isPySpace (c : Char) : Bool :=
  c == ' ' || c == '\t' || c == '\n' || c == '\r' || c == '\x0b' || c == '\x0c'

def isLowerAZ (c : Char) : Bool :=
  'a' ≤ c && c ≤ 'z'

/-- Python `str.lower()` at the ASCII level (the pipeline's inputs). -/
def lowerChar (c : Char) : Char :=
  if 'A' ≤ c && c ≤ 'Z' then Char.ofNat (c.toNat + 32) else c

def lowerStr (s : String) : String :=
  String.mk (s.data.map lowerChar)

/-- `needle in haystack` of Python: plain substring containment. -/
def substrIn (needle hay : List Char) : Bool :=
  (List.range (hay.length + 1)).any fun i =>
    (hay.drop i).take needle.length == needle

/-- word-character status of the character at index `i`, `false` beyond
the ends of the text (regex treats the outside of the string as non-word). -/
def wordAt (text : List Char) (i : Nat) : Bool :=
  match text.get? i with
  | none => false
  | some c => isWordChar c

/-- `\b` of Python regex holds between positions `i-1` and `i` iff exactly
one side is a word character. -/
def boundaryAt (text : List Char) (i : Nat) : Bool :=
  (match i with
   | 0 => false
   | j + 1 => wordAt text j) != wordAt text i

/-- the pattern `\b<kw>\b` (with `kw` taken literally, as produced by
`re.escape`) matches at position `i` of `text`. -/
def wbMatchAt (text kw : List Char) (i : Nat) : Bool :=
  (text.drop i).take kw.length == kw
    && boundaryAt text i && boundaryAt text (i + kw.length)

/-- `re.search(r'\b' + re.escape(kw) + r'\b', text) is not None`. -/
def reSearchWB (text kw : List Char) : Bool :=
  (List.range (text.length + 1)).any (wbMatchAt text kw)

/-! ### ArticleCategorizer (src/categorizer.py)

The keyword tables are transcribed from `ArticleCategorizer.__init__`,
in Python dict insertion order (which `max` iterates over). -/

def category_keywords : List (String × List String) := [
  ("Technology", [
    "tech", "technology", "software", "hardware", "computer", "ai", "artificial intelligence",
    "machine learning", "algorithm", "data", "cyber", "digital", "app", "smartphone",
    "internet", "online", "web", "startup", "silicon valley", "gadget", "innovation",
    "coding", "programming", "developer", "google", "apple", "microsoft", "amazon",
    "facebook", "meta", "twitter", "tesla", "spacex", "robot", "automation", "blockchain",
    "cryptocurrency", "bitcoin", "cloud computing", "5g", "virtual reality", "vr", "ar",
    "tech giant", "tech company", "chip", "semiconductor", "processor", "gaming"]),
  ("Sports", [
    "sport", "football", "soccer", "basketball", "baseball", "tennis", "golf", "cricket",
    "rugby", "hockey", "olympics", "world cup", "championship", "league", "tournament",
    "match", "game", "player", "team", "coach", "athlete", "fifa", "nba", "nfl", "mlb",
    "premier league", "champions league", "medal", "trophy", "score", "goal", "win",
    "defeat", "boxing", "mma", "ufc", "formula 1", "f1", "racing", "marathon", "swimming",
    "super bowl", "world series", "final", "semifinal", "playoff", "stadium", "arena"]),
  ("Business", [
    "business", "company", "corporate", "startup", "entrepreneur", "industry", "retail",
    "e-commerce", "sales", "customer", "brand", "marketing", "ceo", "executive",
    "merger", "acquisition", "venture capital", "ipo", "partnership", "deal",
    "supply chain", "manufacturing", "production", "workforce", "employment",
    "hiring", "layoff", "expansion", "growth strategy", "business model"]),
  ("Finance", [
    "finance", "financial", "economy", "economic", "market", "stock", "stocks", "share",
    "shares", "trading", "trader", "investment", "investor", "investing", "portfolio",
    "bank", "banking", "banker", "central bank", "federal reserve", "interest rate",
    "lloyds", "barclays", "hsbc", "natwest", "santander", "citibank", "jpmorgan",
    "wall street", "bonds", "treasury", "equity", "commodities", "forex", "currency",
    "exchange rate", "bull market", "bear market", "nasdaq", "dow jones", "ftse",
    "s&p 500", "s&p", "dow", "index", "benchmark",
    "inflation", "deflation", "gdp", "recession", "depression", "fiscal", "monetary",
    "unemployment", "employment", "wage", "salary",
    "credit", "debt", "loan", "mortgage", "pension", "hedge fund", "mutual fund",
    "etf", "asset", "capital", "valuation", "ipo", "dividend",
    "cryptocurrency", "bitcoin", "ethereum", "crypto", "blockchain finance", "fintech",
    "profit", "revenue", "earnings", "loss", "turnover", "quarter", "quarterly",
    "annual report", "balance sheet", "cash flow", "analyst", "rating",
    "wealth management", "insurance", "pension fund", "sovereign wealth",
    "investment bank", "retail bank", "commercial bank",
    "money", "cash", "pound", "dollar", "euro", "yen", "price", "cost",
    "spending", "savings", "budget", "tax", "taxation"]),
  ("Politics", [
    "politics", "political", "government", "parliament", "congress", "senate", "election",
    "vote", "democracy", "president", "prime minister", "minister", "policy", "law",
    "legislation", "campaign", "party", "republican", "democrat", "conservative", "labour",
    "diplomatic", "treaty", "summit", "white house", "downing street", "capitol",
    "senator", "representative", "governor", "mayor", "referendum", "ballot"]),
  ("Entertainment", [
    "entertainment", "movie", "film", "cinema", "actor", "actress", "celebrity", "music",
    "concert", "album", "song", "singer", "band", "tv", "television", "show", "series",
    "netflix", "disney", "hollywood", "bollywood", "oscar", "grammy", "emmy", "theater",
    "theatre", "performance", "artist", "fashion", "style", "streaming", "premiere",
    "box office", "red carpet", "awards", "nomination", "soundtrack"]),
  ("Health", [
    "health", "medical", "medicine", "doctor", "hospital", "patient", "disease", "virus",
    "vaccine", "covid", "coronavirus", "pandemic", "epidemic", "healthcare", "treatment",
    "drug", "pharmaceutical", "surgery", "therapy", "mental health", "fitness", "wellness",
    "nutrition", "diet", "obesity", "cancer", "diabetes", "research", "clinical trial",
    "symptom", "diagnosis", "cure", "prevention", "immune", "prescription"]),
  ("Science", [
    "science", "scientific", "research", "study", "university", "discovery", "experiment",
    "physics", "chemistry", "biology", "astronomy", "space", "nasa", "planet", "climate",
    "environment", "evolution", "gene", "dna", "laboratory", "professor", "academic",
    "scientist", "breakthrough", "innovation", "telescope", "microscope", "species"]),
  ("World", [
    "international", "global", "world", "foreign", "country", "nation", "conflict",
    "war", "peace", "united nations", "refugee", "migration", "border", "crisis",
    "embassy", "ambassador", "sanctions", "humanitarian", "geopolitical"])]

/-- `self.exclusion_keywords`: anti-keywords checked by plain substring
containment (`exclusion in text`). -/
def exclusion_keywords : List (String × List String) := [
  ("Technology", ["food tech", "med tech", "health tech"]),
  ("Sports", ["sports bar", "sports betting", "esports"])]

/-- `text = f"{article.get('title','')} {article.get('summary','')}".lower()`. -/
def textOf (a : Article) : String :=
  lowerStr (a.title ++ " " ++ a.summary)

/-- the per-category score of the loop in `categorize`: one point per
keyword whose `\b`-bounded pattern is found in the combined text. -/
def catScore (text : String) (kws : List String) : Nat :=
  (kws.filter fun kw => reSearchWB text.data kw.data).length

def exclFor (c : String) : List String :=
  ((exclusion_keywords.find? fun p => p.1 == c).map Prod.snd).getD []

def isExcluded (text : String) (excls : List String) : Bool :=
  excls.any fun e => substrIn e.data text.data

/-- one iteration of the scoring loop: the category contributes an entry
to `category_scores` iff it is not excluded and its score is positive. -/
def scoreEntry (text : String) (c : String) (kws : List String) : List (String × Nat) :=
  if isExcluded text (exclFor c) then []
  else if 0 < catScore text kws then [(c, catScore text kws)] else []

/-- `category_scores`, as an association list in dict insertion order. -/
def scoresList (a : Article) : List (String × Nat) :=
  (category_keywords.map fun p => scoreEntry (textOf a) p.1 p.2).flatten

/-- `max(category_scores, key=category_scores.get)`: the first entry, in
iteration order, whose score is maximal. -/
def maxBySnd : List (String × Nat) → Option (String × Nat)
  | [] => none
  | p :: rest =>
    match maxBySnd rest with
    | none => some p
    | some q => if p.2 < q.2 then some q else some p

/-- the direct source-URL/source-name matching block at the top of
`ArticleCategorizer.categorize` (the "source override"). -/
def sourceOverride (a : Article) : Option String :=
  let su := lowerStr a.url
  let s := lowerStr a.source
  let hit : List String → Bool := fun ts =>
    ts.any fun t => substrIn t.data su.data || substrIn t.data s.data
  if hit ["espn", "skysports", "bbc-sport", "sports.yahoo", "/sport/"] then some "Sports"
  else if hit ["techcrunch", "theverge", "wired", "arstechnica"] then some "Technology"
  else if hit ["reuters/business", "ft.com", "bloomberg"] then some "Business"
  else if hit ["reuters/markets", "marketwatch", "investing.com"] then some "Finance"
  else none

/-- `ArticleCategorizer.categorize`. -/
def categorize (a : Article) : String :=
  match sourceOverride a with
  | some c => c
  | none =>
    match maxBySnd (scoresList a) with
    | some p => if 2 ≤ p.2 then p.1 else "General"
    | none => "General"

/-- `ArticleCategorizer.categorize_batch` (in-place `category` update). -/
def categorizeBatch (l : List Article) : List Article :=
  l.map fun a => { a with category := categorize a }

/-! ### NewsFetcher (src/news_fetcher.py): deduplication, sort, cap -/

/-- Python `str.strip()`. -/
def stripChars (cs : List Char) : List Char :=
  ((cs.dropWhile isPySpace).reverse.dropWhile isPySpace).reverse

/-- Python `str.split()` (no argument): whitespace-run separated tokens,
empty tokens discarded. -/
def pySplitAux (cur : List Char) : List Char → List (List Char)
  | [] => if cur.isEmpty then [] else [cur.reverse]
  | c :: rest =>
    if isPySpace c then
      if cur.isEmpty then pySplitAux [] rest else cur.reverse :: pySplitAux [] rest
    else pySplitAux (c :: cur) rest

def pySplit (cs : List Char) : List (List Char) :=
  pySplitAux [] cs

/-- `title = article.get('title', '').lower().strip()` of `_deduplicate`. -/
def strippedTitle (a : Article) : List Char :=
  stripChars (lowerStr a.title).data

/-- `title_key = ''.join(title.split()[:10])`. -/
def titleKey (a : Article) : List Char :=
  ((pySplit (strippedTitle a)).take 10).flatten

/-- the loop of `NewsFetcher._deduplicate`, with the two seen-sets as
explicit accumulators. -/
def dedupAux (seenU : List String) (seenT : List (List Char)) :
    List Article → List Article
  | [] => []
  | a :: rest =>
    if a.url ≠ "" ∧ a.url ∈ seenU then dedupAux seenU seenT rest
    else if titleKey a ∈ seenT then dedupAux seenU seenT rest
    else
      a :: dedupAux (if a.url ≠ "" then a.url :: seenU else seenU)
        (if strippedTitle a ≠ [] then titleKey a :: seenT else seenT) rest

/-- `NewsFetcher._deduplicate` (both seen-sets start empty). -/
def deduplicate (l : List Article) : List Article :=
  dedupAux [] [] l

/-- lexicographic `≤` on code points, Python string comparison. -/
def lexLe : List Char → List Char → Bool
  | [], _ => true
  | _ :: _, [] => false
  | a :: as, b :: bs => if a < b then true else if b < a then false else lexLe as bs

/-- stable insertion step: the new element goes after every element that
the comparison keeps before it (so earlier-arrived equals stay first). -/
def insertGe {α : Type} (ge : α → α → Bool) (a : α) : List α → List α
  | [] => [a]
  | b :: rest => if ge b a then b :: insertGe ge a rest else a :: b :: rest

/-- stable sort placing greater elements first, the effect of Python's
stable `list.sort(key=..., reverse=True)`. -/
def sortGe {α : Type} (ge : α → α → Bool) (l : List α) : List α :=
  l.foldl (fun acc a => insertGe ge a acc) []

/-- `b` sorts at or before `a` in the descending-by-`published` order. -/
def pubGe (b a : Article) : Bool :=
  lexLe a.published.data b.published.data

/-- stable descending sort by the `published` string, the effect of
`all_articles.sort(key=lambda x: x.get('published', ''), reverse=True)`. -/
def sortPubDesc (l : List Article) : List Article :=
  sortGe pubGe l

/-- the deterministic tail of `NewsFetcher.fetch_all` applied to the
concatenated adapter outputs: deduplicate, sort by `published`
descending, truncate to 100. -/
def fetchAllPost (l : List Article) : List Article :=
  (sortPubDesc (deduplicate l)).take 100

/-! ### SentimentAnalyzer (src/sentiment_analyzer.py)

TextBlob is an external library; its polarity/subjectivity estimates
enter `analyzeSentiment` as rational parameters. -/

structure Sentiment where
  polarity : ℚ
  subjectivity : ℚ
  label : String
  deriving DecidableEq, Repr

/-- Python `round(q, 3)` (round half to even), on rationals. -/
def pyRound3 (q : ℚ) : ℚ :=
  let x := q * 1000
  let f : ℤ := ⌊x⌋
  let r : ℚ := x - f
  let n : ℤ :=
    if r < 1/2 then f
    else if 1/2 < r then f + 1
    else if f % 2 = 0 then f else f + 1
  (n : ℚ) / 1000

/-- `SentimentAnalyzer.analyze_sentiment`: the empty text short-circuits
to the zero record; otherwise the label is thresholded on the raw
polarity while the stored fields are rounded to 3 decimals. -/
def analyzeSentiment (text : String) (pol subj : ℚ) : Sentiment :=
  if text = "" then ⟨0, 0, "neutral"⟩
  else
    { polarity := pyRound3 pol
      subjectivity := pyRound3 subj
      label :=
        if 1/10 < pol then "positive"
        else if pol < -(1/10) then "negative"
        else "neutral" }

/-! ### TrendAnalyzer (src/trend_analyzer.py) -/

def stop_words : List String := [
  "the", "a", "an", "and", "or", "but", "in", "on", "at", "to", "for",
  "of", "with", "by", "from", "up", "about", "into", "through", "during",
  "is", "are", "was", "were", "be", "been", "being", "have", "has", "had",
  "do", "does", "did", "will", "would", "could", "should", "may", "might",
  "says", "said", "after", "new", "over", "more", "their", "this", "that"]

/-- maximal runs of regex word characters. -/
def wordRunsAux (cur : List Char) : List Char → List (List Char)
  | [] => if cur.isEmpty then [] else [cur.reverse]
  | c :: rest =>
    if isWordChar c then wordRunsAux (c :: cur) rest
    else if cur.isEmpty then wordRunsAux [] rest
    else cur.reverse :: wordRunsAux [] rest

def wordRuns (cs : List Char) : List (List Char) :=
  wordRunsAux [] cs

/-- `re.findall(r'\b[a-z]{3,}\b', text.lower())`: the maximal word-character
runs made of lower-case letters only, of length at least 3. -/
def tokensOf (text : String) : List String :=
  ((wordRuns (lowerStr text).data).filter fun r =>
    3 ≤ r.length && r.all isLowerAZ).map String.mk

/-- the token stream after the stop-word filter. -/
def filteredWords (text : String) : List String :=
  (tokensOf text).filter fun w => !stop_words.contains w

/-- distinct words in first-seen order (`Counter` key insertion order). -/
def firstSeenAux (seen : List String) : List String → List String
  | [] => []
  | w :: rest =>
    if w ∈ seen then firstSeenAux seen rest
    else w :: firstSeenAux (w :: seen) rest

/-- `Counter(words)` as an association list in key insertion order. -/
def counterItems (ws : List String) : List (String × Nat) :=
  (firstSeenAux [] ws).map fun w => (w, ws.count w)

/-- `q` sorts at or before `p` in the descending-by-count order. -/
def cntGe (q p : String × Nat) : Bool :=
  Nat.ble p.2 q.2

/-- stable descending sort by count (`Counter.most_common` ordering). -/
def sortCntDesc (l : List (String × Nat)) : List (String × Nat) :=
  sortGe cntGe l

/-- `TrendAnalyzer.extract_keywords`. -/
def extractKeywords (text : String) (top_n : Nat) : List (String × Nat) :=
  (sortCntDesc (counterItems (filteredWords text))).take top_n

/-! ### ConversationalAgent._generate_response (src/conversational_agent.py)

The dispatch is modelled as a function from the case-folded utterance to
the handler it selects. -/

inductive Intent where
  | greeting
  | helpIntent
  | topStories
  | category (c : String)
  | sentiment
  | trending
  | summarize
  | search (topic : String)
  | countStats
  | fallback
  deriving DecidableEq, Repr

def greetWords : List String := ["hello", "hi", "hey", "greetings"]
def helpWords : List String := ["help", "what can you do", "commands"]
def topStoriesWords : List String := ["top stories", "latest news", "headlines", "what\x27s new"]
def categoriesList : List String :=
  ["technology", "sports", "business", "finance", "politics",
   "entertainment", "health", "science", "world"]
def trendWords : List String := ["trending", "popular", "hot", "viral"]
def countWords : List String := ["how many", "number of", "count"]

def containsAny (q : String) (ws : List String) : Bool :=
  ws.any fun w => substrIn w.data q.data

/-- a character of the class `[a-z\s]` of the `_extract_topic` patterns. -/
def topicClass (c : Char) : Bool :=
  isLowerAZ c || isPySpace c

/-- `re.sub(r'\s+(news|articles|stories)$', '', topic)`. -/
def stripNoiseWord (t : List Char) (w : List Char) : Option (List Char) :=
  if w.length < t.length && t.drop (t.length - w.length) == w then
    let before := t.take (t.length - w.length)
    let trimmed := (before.reverse.dropWhile isPySpace).reverse
    if trimmed.length < before.length then some trimmed else none
  else none

def stripNoise (t : List Char) : List Char :=
  match stripNoiseWord t "news".data with
  | some r => r
  | none =>
    match stripNoiseWord t "articles".data with
    | some r => r
    | none =>
      match stripNoiseWord t "stories".data with
      | some r => r
      | none => t

/-- attempt of the regex `PRE\s+([a-z\s]+)` at position `i` of `q`: the
capture requires at least one whitespace character followed by at least
one more `[a-z\s]` character right after the literal `pre`.  The value
returned is the captured group after the `.strip()` that the caller
performs (`group(1).strip()` always equals the whole greedy `[a-z\s]`
run stripped of surrounding whitespace). -/
def topicMatchAt (q pre : List Char) (i : Nat) : Option (List Char) :=
  if (q.drop i).take pre.length == pre then
    let run := (q.drop (i + pre.length)).takeWhile topicClass
    match run with
    | [] => none
    | c :: rest =>
      if isPySpace c && !rest.isEmpty then some (stripChars run) else none
  else none

/-- `re.search` for one `_extract_topic` pattern: leftmost position wins. -/
def topicSearch (q pre : List Char) : Option (List Char) :=
  (List.range (q.length + 1)).findSome? fun i => topicMatchAt q pre i

/-- `ConversationalAgent._extract_topic`. -/
def extractTopic (q : String) : Option String :=
  (["about", "on", "regarding", "find", "search"].map String.data).findSome?
    fun pre => (topicSearch q.data pre).map fun t => String.mk (stripNoise t)

/-- the tail of `_generate_response` after the topic-search branch falls
through: the count check, then the general-query default. -/
def afterSearch (q : String) : Intent :=
  if containsAny q countWords then .countStats else .fallback

/-- `ConversationalAgent._generate_response` on the case-folded query:
which handler the conditional chain dispatches to. -/
def generateResponse (q : String) : Intent :=
  if containsAny q greetWords then .greeting
  else if containsAny q helpWords then .helpIntent
  else if containsAny q topStoriesWords then .topStories
  else
    match categoriesList.find? fun c => substrIn c.data q.data with
    | some c => .category c
    | none =>
      if containsAny q ["sentiment", "feeling", "mood"] then .sentiment
      else if containsAny q trendWords then .trending
      else if containsAny q ["summarize", "summary", "brief"] then .summarize
      else if containsAny q ["about", "find", "search"] then
        match extractTopic q with
        | some t => if t = "" then afterSearch q else .search t
        | none => afterSearch q
      else afterSearch q

/-! ### Specification-side definitions

These follow the wording of the specification (not the code); the claim
theorems compare them with the embedded code. -/

/-- a whole-word occurrence of `kw` at position `i` of `text`, stated the
way the spec describes word-boundary matching: the occupied slice equals
`kw` and no word character directly abuts it on either side. -/
def SpecMatchAt (text kw : List Char) (i : Nat) : Prop :=
  (text.drop i).take kw.length = kw ∧
  (i = 0 ∨ wordAt text (i - 1) = false) ∧
  wordAt text (i + kw.length) = false

instance (text kw : List Char) (i : Nat) : Decidable (SpecMatchAt text kw i) := by
  unfold SpecMatchAt; infer_instance

/-- `kw` has a whole-word match somewhere in `text`. -/
def SpecWholeWordMatch (text kw : List Char) : Prop :=
  ∃ i ∈ List.range (text.length + 1), SpecMatchAt text kw i

instance (text kw : List Char) : Decidable (SpecWholeWordMatch text kw) :=
  List.decidableBEx _ _

/-- the keyword is non-empty and starts and ends with a word character
(every keyword of `category_keywords` does). -/
def wordBounded (kw : List Char) : Bool :=
  !kw.isEmpty && isWordChar (kw.headD ' ') && isWordChar (kw.getLastD ' ')

/-- the score a keyword list earns on a text according to the spec's
scoring rule: one point per whole-word keyword match. -/
def specScore (text : String) (kws : List String) : Nat :=
  kws.foldl (fun s kw => s + (if SpecWholeWordMatch text.data kw.data then 1 else 0)) 0

/-- the category score that claim C1 asserts: three points per whole-word
match in the title alone plus one point per whole-word match in the
combined title-and-summary text. -/
def claimedScoreC1 (a : Article) (kws : List String) : Nat :=
  3 * specScore (lowerStr a.title) kws + specScore (textOf a) kws

/-- the keyword list of one category of the table. -/
def keywordsOf (c : String) : List String :=
  ((category_keywords.find? fun p => p.1 == c).map Prod.snd).getD []

/-- Modelled from claim C3's reading of `_deduplicate`: an article is
dropped when its URL, or its title key, occurred anywhere earlier in the
list — earlier *dropped* articles included.  (The code instead records
only surviving articles in its seen-sets.) -/
def dedupClaimedC3Aux (seenU : List String) (seenT : List (List Char)) :
    List Article → List Article
  | [] => []
  | a :: rest =>
    (if a.url ∈ seenU ∨ titleKey a ∈ seenT then [] else [a]) ++
      dedupClaimedC3Aux (a.url :: seenU) (titleKey a :: seenT) rest

def dedupClaimedC3 (l : List Article) : List Article :=
  dedupClaimedC3Aux [] [] l

/-! ## Helper lemmas -/

theorem insertGe_perm {α : Type} (ge : α → α → Bool) (a : α) (l : List α) :
    List.Perm (insertGe ge a l) (a :: l) := by
  induction l with
  | nil => exact List.Perm.refl _
  | cons b rest ih =>
    unfold insertGe
    by_cases h : ge b a = true
    · simp only [h, if_true]
      exact (ih.cons b).trans (List.Perm.swap a b rest)
    · rw [if_neg h]

theorem foldl_insertGe_perm {α : Type} (ge : α → α → Bool) :
    ∀ (l acc : List α),
      List.Perm (l.foldl (fun acc x => insertGe ge x acc) acc) (acc ++ l) := by
  intro l
  induction l with
  | nil => simp
  | cons a rest ih =>
    intro acc
    have h1 : List.Perm (rest.foldl (fun acc x => insertGe ge x acc) (insertGe ge a acc))
        (insertGe ge a acc ++ rest) := ih _
    have h2 : List.Perm (insertGe ge a acc ++ rest) ((a :: acc) ++ rest) :=
      (insertGe_perm ge a acc).append_right rest
    have h3 : List.Perm (a :: (acc ++ rest)) (acc ++ a :: rest) := List.perm_middle.symm
    exact (h1.trans h2).trans h3

theorem sortGe_perm {α : Type} (ge : α → α → Bool) (l : List α) :
    List.Perm (sortGe ge l) l :=
  (foldl_insertGe_perm ge l []).trans (by simp)

theorem mem_insertGe {α : Type} (ge : α → α → Bool) (a c : α) (l : List α) :
    c ∈ insertGe ge a l ↔ c = a ∨ c ∈ l := by
  rw [(insertGe_perm ge a l).mem_iff, List.mem_cons]

theorem insertGe_pairwise {α : Type} (ge : α → α → Bool)
    (htot : ∀ x y, ge x y = true ∨ ge y x = true)
    (htrans : ∀ x y z, ge x y = true → ge y z = true → ge x z = true)
    (a : α) (l : List α) (hl : l.Pairwise fun x y => ge x y = true) :
    (insertGe ge a l).Pairwise fun x y => ge x y = true := by
  induction l with
  | nil => simp [insertGe]
  | cons b rest ih =>
    rcases List.pairwise_cons.mp hl with ⟨hb, hrest⟩
    unfold insertGe
    by_cases h : ge b a = true
    · simp only [h, if_true]
      refine List.pairwise_cons.mpr ⟨?_, ih hrest⟩
      intro c hc
      rcases (mem_insertGe ge a c rest).mp hc with rfl | hc
      · exact h
      · exact hb c hc
    · rw [if_neg h]
      have hab : ge a b = true := (htot a b).resolve_right fun hba => h hba
      refine List.pairwise_cons.mpr ⟨?_, hl⟩
      intro c hc
      rcases List.mem_cons.mp hc with rfl | hc
      · exact hab
      · exact htrans a b c hab (hb c hc)

theorem sortGe_pairwise {α : Type} (ge : α → α → Bool)
    (htot : ∀ x y, ge x y = true ∨ ge y x = true)
    (htrans : ∀ x y z, ge x y = true → ge y z = true → ge x z = true)
    (l : List α) :
    (sortGe ge l).Pairwise fun x y => ge x y = true := by
  suffices h : ∀ (l acc : List α), acc.Pairwise (fun x y => ge x y = true) →
      (l.foldl (fun acc x => insertGe ge x acc) acc).Pairwise fun x y => ge x y = true by
    exact h l [] (by simp)
  intro l
  induction l with
  | nil => intro acc hacc; exact hacc
  | cons a rest ih =>
    intro acc hacc
    exact ih _ (insertGe_pairwise ge htot htrans a acc hacc)

theorem lexLe_total : ∀ x y : List Char, lexLe x y = true ∨ lexLe y x = true := by
  intro x
  induction x with
  | nil => intro y; left; rfl
  | cons a as ih =>
    intro y
    cases y with
    | nil => right; rfl
    | cons b bs =>
      by_cases hab : a < b
      · left; simp [lexLe, hab]
      · by_cases hba : b < a
        · right; simp [lexLe, hba, hab]
        · rcases ih bs with h | h
          · left; simp [lexLe, hab, hba, h]
          · right; simp [lexLe, hab, hba, h]

theorem lexLe_trans : ∀ x y z : List Char,
    lexLe x y = true → lexLe y z = true → lexLe x z = true := by
  intro x
  induction x with
  | nil => intro y z _ _; rfl
  | cons a as ih =>
    intro y z hxy hyz
    cases y with
    | nil => simp [lexLe] at hxy
    | cons b bs =>
      cases z with
      | nil => simp [lexLe] at hyz
      | cons c cs =>
        simp only [lexLe] at hxy hyz ⊢
        by_cases hab : a < b <;> by_cases hbc : b < c
        · have hac : a < c := lt_trans hab hbc
          simp [hac]
        · simp only [hbc, if_false] at hyz
          by_cases hcb : c < b
          · simp [hcb] at hyz
          · have hbc' : b = c := le_antisymm (not_lt.mp hcb) (not_lt.mp hbc)
            subst hbc'
            simp [hab]
        · simp only [hab, if_false] at hxy
          by_cases hba : b < a
          · simp [hba] at hxy
          · have hab' : a = b := le_antisymm (not_lt.mp hba) (not_lt.mp hab)
            subst hab'
            simp [hbc]
        · simp only [hab, if_false] at hxy
          simp only [hbc, if_false] at hyz
          by_cases hba : b < a
          · simp [hba] at hxy
          · by_cases hcb : c < b
            · simp [hcb] at hyz
            · have h1 : a = b := le_antisymm (not_lt.mp hba) (not_lt.mp hab)
              have h2 : b = c := le_antisymm (not_lt.mp hcb) (not_lt.mp hbc)
              subst h1; subst h2
              simp only [lt_irrefl, if_false] at hxy hyz ⊢
              exact ih _ _ hxy hyz

theorem lexLe_nil_right : ∀ x : List Char, lexLe x [] = true → x = [] := by
  intro x h
  cases x with
  | nil => rfl
  | cons a as => simp [lexLe] at h

theorem pubGe_total : ∀ x y : Article, pubGe x y = true ∨ pubGe y x = true := by
  intro x y
  rcases lexLe_total x.published.data y.published.data with h | h
  · right; exact h
  · left; exact h

theorem pubGe_trans : ∀ x y z : Article,
    pubGe x y = true → pubGe y z = true → pubGe x z = true := by
  intro x y z hxy hyz
  exact lexLe_trans _ _ _ hyz hxy

theorem str_eq_empty_of_data {s : String} (h : s.data = []) : s = "" := by
  cases s with
  | mk d => cases h; rfl

theorem cntGe_total : ∀ x y : String × Nat, cntGe x y = true ∨ cntGe y x = true := by
  intro x y
  unfold cntGe
  simp only [Nat.ble_eq]
  omega

theorem cntGe_trans : ∀ x y z : String × Nat,
    cntGe x y = true → cntGe y z = true → cntGe x z = true := by
  intro x y z
  unfold cntGe
  simp only [Nat.ble_eq]
  omega

theorem filter_insertGe_cnt (c : Nat) (p : String × Nat) (acc : List (String × Nat))
    (hacc : acc.Pairwise fun x y => cntGe x y = true) :
    (insertGe cntGe p acc).filter (fun x => x.2 == c) =
      if p.2 = c then (acc.filter fun x => x.2 == c) ++ [p]
      else acc.filter fun x => x.2 == c := by
  induction acc with
  | nil =>
    by_cases hpc : p.2 = c
    · simp [insertGe, List.filter_cons, beq_iff_eq, hpc]
    · simp [insertGe, List.filter_cons, beq_iff_eq, hpc]
  | cons q rest ih =>
    rcases List.pairwise_cons.mp hacc with ⟨hq, hrest⟩
    unfold insertGe
    by_cases h : cntGe q p = true
    · rw [if_pos h]
      have ihr := ih hrest
      by_cases hpc : p.2 = c
      · rw [if_pos hpc] at ihr ⊢
        by_cases hqc : q.2 = c
        · simp [List.filter_cons, hqc, ihr]
        · simp [List.filter_cons, hqc, ihr]
      · rw [if_neg hpc] at ihr ⊢
        by_cases hqc : q.2 = c
        · simp [List.filter_cons, hqc, ihr]
        · simp [List.filter_cons, hqc, ihr]
    · rw [if_neg h]
      have hqp : q.2 < p.2 := by
        unfold cntGe at h
        simp only [Nat.ble_eq] at h
        omega
      by_cases hpc : p.2 = c
      · rw [if_pos hpc]
        have hnil : ((q :: rest).filter fun x => x.2 == c) = [] := by
          rw [List.filter_eq_nil_iff]
          intro x hx
          have hxq : x.2 ≤ q.2 := by
            rcases List.mem_cons.mp hx with rfl | hx
            · exact Nat.le_refl _
            · have := hq x hx
              unfold cntGe at this
              simpa [Nat.ble_eq] using this
          have hlt : x.2 < c := by omega
          simp
          omega
        rw [hnil, List.filter_cons]
        simp [hpc, hnil]
      · rw [if_neg hpc]
        rw [List.filter_cons]
        simp [hpc]

theorem filter_sortGe_cnt (c : Nat) (l : List (String × Nat)) :
    (sortCntDesc l).filter (fun x => x.2 == c) = l.filter fun x => x.2 == c := by
  suffices h : ∀ (l acc : List (String × Nat)),
      acc.Pairwise (fun x y => cntGe x y = true) →
      ((l.foldl (fun acc p => insertGe cntGe p acc) acc).filter fun x => x.2 == c) =
        (acc.filter fun x => x.2 == c) ++ (l.filter fun x => x.2 == c) by
    have := h l [] (by simp)
    simpa [sortCntDesc, sortGe] using this
  intro l
  induction l with
  | nil => intro acc hacc; simp
  | cons p rest ih =>
    intro acc hacc
    have hacc' : (insertGe cntGe p acc).Pairwise fun x y => cntGe x y = true :=
      insertGe_pairwise cntGe cntGe_total cntGe_trans p acc hacc
    have step := ih (insertGe cntGe p acc) hacc'
    calc ((p :: rest).foldl (fun acc p => insertGe cntGe p acc) acc).filter
            (fun x => x.2 == c)
        = ((insertGe cntGe p acc).filter fun x => x.2 == c) ++
            (rest.filter fun x => x.2 == c) := step
      _ = (acc.filter fun x => x.2 == c) ++ ((p :: rest).filter fun x => x.2 == c) := by
          rw [filter_insertGe_cnt c p acc hacc]
          by_cases hpc : p.2 = c
          · simp [hpc, List.filter_cons]
          · simp [hpc, List.filter_cons]

/-! ## Claim C4: fetch_all output is sorted by `published` descending and
capped at 100 articles -/

/-- C4 (confirmed): every list produced by the deterministic tail of
`fetch_all` is non-increasing in the `published` string (missing
`published` is the empty string, which sorts after every dated article)
and has at most 100 elements. -/
theorem claim4_fetchAll_sorted_capped (l : List Article) :
    (fetchAllPost l).length ≤ 100 ∧
    (fetchAllPost l).Pairwise
      (fun a b => lexLe b.published.data a.published.data = true) ∧
    (fetchAllPost l).Pairwise fun a b => a.published = "" → b.published = "" := by
  have hsorted : (sortPubDesc (deduplicate l)).Pairwise
      (fun x y => pubGe x y = true) :=
    sortGe_pairwise pubGe pubGe_total pubGe_trans _
  have htake : (fetchAllPost l).Pairwise (fun x y => pubGe x y = true) :=
    List.Pairwise.sublist (List.take_sublist 100 _) hsorted
  refine ⟨List.length_take_le _ _, htake, ?_⟩
  refine htake.imp ?_
  intro x y hxy hx
  have hx' : x.published.data = [] := by rw [hx]
  have : lexLe y.published.data x.published.data = true := hxy
  rw [hx'] at this
  exact str_eq_empty_of_data (lexLe_nil_right _ this)

theorem mem_sortGe {α : Type} (ge : α → α → Bool) (l : List α) (p : α) :
    p ∈ sortGe ge l ↔ p ∈ l :=
  (sortGe_perm ge l).mem_iff

theorem mem_of_mem_firstSeenAux (seen ws : List String) (w : String)
    (h : w ∈ firstSeenAux seen ws) : w ∈ ws := by
  induction ws generalizing seen with
  | nil => simp [firstSeenAux] at h
  | cons v rest ih =>
    unfold firstSeenAux at h
    by_cases hv : v ∈ seen
    · rw [if_pos hv] at h
      exact List.mem_cons_of_mem v (ih _ h)
    · rw [if_neg hv] at h
      rcases List.mem_cons.mp h with rfl | h
      · exact List.mem_cons_self _ _
      · exact List.mem_cons_of_mem v (ih _ h)

theorem mem_counterItems (ws : List String) (p : String × Nat)
    (h : p ∈ counterItems ws) : p.1 ∈ ws ∧ p.2 = ws.count p.1 := by
  unfold counterItems at h
  rcases List.mem_map.mp h with ⟨w, hw, rfl⟩
  exact ⟨mem_of_mem_firstSeenAux _ _ _ hw, rfl⟩

theorem mem_tokensOf (text : String) (w : String) (h : w ∈ tokensOf text) :
    3 ≤ w.data.length ∧ w.data.all isLowerAZ = true := by
  unfold tokensOf at h
  rcases List.mem_map.mp h with ⟨r, hr, rfl⟩
  rcases List.mem_filter.mp hr with ⟨_, hprop⟩
  simp only [Bool.and_eq_true, decide_eq_true_eq] at hprop
  exact ⟨hprop.1, hprop.2⟩

theorem mem_filteredWords (text : String) (w : String) (h : w ∈ filteredWords text) :
    w ∈ tokensOf text ∧ stop_words.contains w = false := by
  rcases List.mem_filter.mp h with ⟨htok, hstop⟩
  refine ⟨htok, ?_⟩
  simpa using hstop

/-- C4 witness: the contract evaluated on a concrete batch. -/
theorem claim4_fetchAll_sorted_capped_w :
    (fetchAllPost [({ url := "a", published := "2024-01-02" } : Article),
      { url := "b", published := "2024-01-03" }]).length ≤ 100 :=
  (claim4_fetchAll_sorted_capped
    [{ url := "a", published := "2024-01-02" },
     { url := "b", published := "2024-01-03" }]).1

/-! ## Claim C8: the extract_keywords contract -/

/-- C8 (confirmed): `extract_keywords` returns at most `top_n` pairs; no
returned keyword is a stop word; every returned keyword is a lower-cased
alphabetic token of the text of length at least 3, paired with its
frequency in the filtered token stream; frequencies are non-increasing;
and pairs of equal frequency keep the first-seen order of the token
stream (the returned pairs of any fixed frequency form an initial
segment of the first-seen-ordered counter items of that frequency). -/
theorem claim8_extractKeywords_contract (text : String) (n : Nat) :
    (extractKeywords text n).length ≤ n ∧
    (∀ p ∈ extractKeywords text n,
      stop_words.contains p.1 = false ∧ p.1 ∈ tokensOf text ∧
      3 ≤ p.1.data.length ∧ p.1.data.all isLowerAZ = true ∧
      p.2 = (filteredWords text).count p.1) ∧
    (extractKeywords text n).Pairwise (fun p q => q.2 ≤ p.2) ∧
    ∀ c : Nat,
      ((extractKeywords text n).filter fun p => p.2 == c) <+:
        ((counterItems (filteredWords text)).filter fun p => p.2 == c) := by
  refine ⟨List.length_take_le _ _, ?_, ?_, ?_⟩
  · intro p hp
    have hp1 : p ∈ sortCntDesc (counterItems (filteredWords text)) :=
      List.take_subset _ _ hp
    have hp2 : p ∈ counterItems (filteredWords text) :=
      (mem_sortGe cntGe _ p).mp hp1
    rcases mem_counterItems _ p hp2 with ⟨hmem, hcount⟩
    rcases mem_filteredWords text p.1 hmem with ⟨htok, hstop⟩
    rcases mem_tokensOf text p.1 htok with ⟨hlen, hall⟩
    exact ⟨hstop, htok, hlen, hall, hcount⟩
  · have hs : (sortCntDesc (counterItems (filteredWords text))).Pairwise
        (fun x y => cntGe x y = true) :=
      sortGe_pairwise cntGe cntGe_total cntGe_trans _
    have ht := List.Pairwise.sublist (List.take_sublist n _) hs
    refine ht.imp ?_
    intro x y hxy
    unfold cntGe at hxy
    simpa [Nat.ble_eq] using hxy
  · intro c
    have h1 : ((extractKeywords text n).filter fun p => p.2 == c) <+:
        ((sortCntDesc (counterItems (filteredWords text))).filter fun p => p.2 == c) :=
      List.IsPrefix.filter _ ( List.take_prefix n _)
    rwa [filter_sortGe_cnt] at h1

/-- C8 witness: a concrete run of the contract. -/
theorem claim8_extractKeywords_contract_w :
    ("alpha", 2) ∈ extractKeywords "alpha beta alpha" 5 ∧
    stop_words.contains "alpha" = false :=
  ⟨by decide,
   ((claim8_extractKeywords_contract "alpha beta alpha" 5).2.1 ("alpha", 2)
     (by decide)).1⟩

/-! ## Deduplication lemmas -/

theorem dedupAux_sublist : ∀ (l : List Article) (seenU : List String)
    (seenT : List (List Char)), List.Sublist (dedupAux seenU seenT l) l := by
  intro l
  induction l with
  | nil => intro seenU seenT; simp [dedupAux]
  | cons a rest ih =>
    intro seenU seenT
    unfold dedupAux
    by_cases h1 : a.url ≠ "" ∧ a.url ∈ seenU
    · rw [if_pos h1]
      exact (ih seenU seenT).cons a
    · rw [if_neg h1]
      by_cases h2 : titleKey a ∈ seenT
      · rw [if_pos h2]
        exact (ih seenU seenT).cons a
      · rw [if_neg h2]
        exact (ih _ _).cons₂ a

theorem mem_dedupAux : ∀ (l : List Article) (seenU : List String)
    (seenT : List (List Char)) (a : Article), a ∈ dedupAux seenU seenT l →
    (a.url = "" ∨ a.url ∉ seenU) ∧ titleKey a ∉ seenT := by
  intro l
  induction l with
  | nil => intro seenU seenT a h; simp [dedupAux] at h
  | cons b rest ih =>
    intro seenU seenT a h
    unfold dedupAux at h
    by_cases h1 : b.url ≠ "" ∧ b.url ∈ seenU
    · rw [if_pos h1] at h
      exact ih seenU seenT a h
    · rw [if_neg h1] at h
      by_cases h2 : titleKey b ∈ seenT
      · rw [if_pos h2] at h
        exact ih seenU seenT a h
      · rw [if_neg h2] at h
        rcases List.mem_cons.mp h with rfl | h
        · constructor
          · by_cases hu : a.url = ""
            · exact Or.inl hu
            · exact Or.inr fun hmem => h1 ⟨hu, hmem⟩
          · exact h2
        · have := ih _ _ a h
          constructor
          · rcases this.1 with hu | hu
            · exact Or.inl hu
            · refine Or.inr fun hmem => hu ?_
              by_cases hbu : b.url = ""
              · simpa [hbu] using hmem
              · simp only [hbu, ne_eq, not_false_iff, if_true]
                exact List.mem_cons_of_mem _ hmem
          · intro hmem
            apply this.2
            by_cases hbt : strippedTitle b = []
            · simpa [hbt] using hmem
            · simp only [hbt, ne_eq, not_false_iff, if_true]
              exact List.mem_cons_of_mem _ hmem

theorem dedupAux_pairwise : ∀ (l : List Article) (seenU : List String)
    (seenT : List (List Char)),
    (dedupAux seenU seenT l).Pairwise
      (fun a b => (a.url ≠ "" → b.url ≠ a.url) ∧
        (strippedTitle a ≠ [] → titleKey b ≠ titleKey a)) := by
  intro l
  induction l with
  | nil => intro seenU seenT; simp [dedupAux]
  | cons a rest ih =>
    intro seenU seenT
    unfold dedupAux
    by_cases h1 : a.url ≠ "" ∧ a.url ∈ seenU
    · rw [if_pos h1]; exact ih seenU seenT
    · rw [if_neg h1]
      by_cases h2 : titleKey a ∈ seenT
      · rw [if_pos h2]; exact ih seenU seenT
      · rw [if_neg h2]
        refine List.pairwise_cons.mpr ⟨?_, ih _ _⟩
        intro b hb
        have hmem := mem_dedupAux rest _ _ b hb
        constructor
        · intro hau
          rcases hmem.1 with hbu | hbu
          · rw [hbu]; exact fun h => hau h.symm
          · intro hba
            apply hbu
            simp only [hau, ne_eq, not_false_iff, if_true]
            rw [hba]
            exact List.mem_cons_self _ _
        · intro hat
          intro hbt
          apply hmem.2
          simp only [hat, ne_eq, not_false_iff, if_true]
          rw [hbt]
          exact List.mem_cons_self _ _

theorem titleKey_of_stripped_nil (a : Article) (h : strippedTitle a = []) :
    titleKey a = [] := by
  unfold titleKey
  rw [h]
  rfl

theorem dedupAux_id : ∀ (l : List Article) (seenU : List String)
    (seenT : List (List Char)),
    (∀ a ∈ l, strippedTitle a = []) →
    l.Pairwise (fun a b => a.url ≠ b.url) →
    (∀ a ∈ l, a.url ∉ seenU) →
    ([] : List Char) ∉ seenT →
    dedupAux seenU seenT l = l := by
  intro l
  induction l with
  | nil => intro seenU seenT _ _ _ _; rfl
  | cons a rest ih =>
    intro seenU seenT ht hp hu hT
    rcases List.pairwise_cons.mp hp with ⟨hpa, hprest⟩
    have hta : strippedTitle a = [] := ht a (List.mem_cons_self _ _)
    have hc1 : ¬(a.url ≠ "" ∧ a.url ∈ seenU) := fun hcon =>
      hu a (List.mem_cons_self _ _) hcon.2
    have hc2 : titleKey a ∉ seenT := by
      rw [titleKey_of_stripped_nil a hta]
      exact hT
    unfold dedupAux
    rw [if_neg hc1, if_neg hc2]
    have hseenT : (if strippedTitle a ≠ [] then titleKey a :: seenT else seenT)
        = seenT := by
      rw [if_neg]
      simp [hta]
    rw [hseenT]
    congr 1
    apply ih
    · intro b hb; exact ht b (List.mem_cons_of_mem _ hb)
    · exact hprest
    · intro b hb hmem
      by_cases hau : a.url = ""
      · rw [if_neg (by simp [hau])] at hmem
        exact hu b (List.mem_cons_of_mem _ hb) hmem
      · rw [if_pos hau] at hmem
        rcases List.mem_cons.mp hmem with heq | hmem
        · exact hpa b hb heq.symm
        · exact hu b (List.mem_cons_of_mem _ hb) hmem
    · exact hT

/-! ## Claim C3: deduplication semantics -/

/-- C3 counterexample: with articles P = (u1, "alpha beta"),
Q = (u1, "gamma delta"), R = (u2, "gamma delta"), the code keeps R even
though R's title key occurred earlier in the list (at Q, which was
dropped by the URL rule and therefore never recorded its title key),
while the claim's reading — seen-sets fed by every earlier article —
would drop R. -/
theorem claim3_dedup_cex :
    deduplicate
        [{ title := "alpha beta", url := "u1" },
         { title := "gamma delta", url := "u1" },
         { title := "gamma delta", url := "u2" }] =
      [{ title := "alpha beta", url := "u1" },
       { title := "gamma delta", url := "u2" }] ∧
    dedupClaimedC3
        [{ title := "alpha beta", url := "u1" },
         { title := "gamma delta", url := "u1" },
         { title := "gamma delta", url := "u2" }] =
      [{ title := "alpha beta", url := "u1" }] ∧
    titleKey ({ title := "gamma delta", url := "u1" } : Article) =
      titleKey ({ title := "gamma delta", url := "u2" } : Article) := by
  exact ⟨by decide, by decide, by decide⟩

/-- C3 (amended): `_deduplicate` keeps, in arrival order, exactly the
articles whose non-empty URL was not recorded by an earlier *surviving*
article and whose title key was not recorded by an earlier surviving
article with a non-empty stripped title (the seen-sets advance only on
survivors).  In particular no two survivors share a non-empty URL or a
non-empty-title key, a repeated URL in a two-element list keeps only the
first article, and a repeated title key (with a non-empty first title)
keeps only the first article. -/
theorem claim3_dedup_amended (l : List Article) :
    List.Sublist (deduplicate l) l ∧
    (deduplicate l).Pairwise
      (fun a b => (a.url ≠ "" → b.url ≠ a.url) ∧
        (strippedTitle a ≠ [] → titleKey b ≠ titleKey a)) ∧
    (∀ a b : Article, a.url ≠ "" → b.url = a.url → deduplicate [a, b] = [a]) ∧
    (∀ a b : Article, strippedTitle a ≠ [] → titleKey b = titleKey a →
      deduplicate [a, b] = [a]) := by
  refine ⟨dedupAux_sublist l [] [], dedupAux_pairwise l [] [], ?_, ?_⟩
  · intro a b ha hb
    unfold deduplicate dedupAux
    rw [if_neg (by simp), if_neg (by simp)]
    unfold dedupAux
    rw [if_pos]
    · rfl
    · refine ⟨?_, ?_⟩
      · rw [hb]; exact ha
      · simp only [ne_eq, ha, not_false_iff, if_true]
        rw [hb]
        exact List.mem_cons_self _ _
  · intro a b ha hb
    unfold deduplicate dedupAux
    rw [if_neg (by simp), if_neg (by simp)]
    unfold dedupAux
    by_cases hc : b.url ≠ "" ∧ b.url ∈ (if a.url ≠ "" then [a.url] else [])
    · rw [if_pos hc]
      rfl
    · rw [if_neg hc]
      have hcond : titleKey b ∈
          (if strippedTitle a ≠ [] then [titleKey a] else ([] : List (List Char))) := by
        rw [if_pos ha, hb]
        exact List.mem_cons_self _ _
      rw [if_pos hcond]
      rfl

/-- C3 witness for the amended theorem: the two-element URL-collapse
consequence at a concrete pair. -/
theorem claim3_dedup_amended_w :
    deduplicate [({ url := "u", title := "x" } : Article),
      { url := "u", title := "y" }] = [{ url := "u", title := "x" }] :=
  (claim3_dedup_amended []).2.2.1 { url := "u", title := "x" }
    { url := "u", title := "y" } (by decide) rfl

/-! ## Claim C10: whitespace-only titles never collide -/

/-- C10 (confirmed): articles whose stripped lower-cased title is empty
never record a title key; a list of such articles with pairwise distinct
URLs survives deduplication in full, although all their title keys
coincide (they are all empty). -/
theorem claim10_empty_titles_survive (l : List Article)
    (ht : ∀ a ∈ l, strippedTitle a = [])
    (hu : l.Pairwise fun a b => a.url ≠ b.url) :
    deduplicate l = l :=
  dedupAux_id l [] [] ht hu (by simp) (by simp)

/-- C10 witness: two empty-titled articles (one of them whitespace-only)
with distinct URLs both survive. -/
theorem claim10_empty_titles_survive_w :
    deduplicate [({ url := "u1" } : Article), { url := "u2", title := "   " }] =
      [({ url := "u1" } : Article), { url := "u2", title := "   " }] :=
  claim10_empty_titles_survive _ (by decide) (by decide)

/-! ## Claim C9: categorize_batch writes only the category field -/

/-- C9 (confirmed): `categorize_batch` returns the list unchanged in
length and order; for each article every field other than `category`
keeps its value, and `category` becomes `categorize` of the article. -/
theorem claim9_categorizeBatch_frame (l : List Article) :
    (categorizeBatch l).length = l.length ∧
    List.Forall₂ (fun a b =>
      b.title = a.title ∧ b.summary = a.summary ∧ b.url = a.url ∧
      b.source = a.source ∧ b.published = a.published ∧ b.image = a.image ∧
      b.author = a.author ∧ b.category = categorize a) l (categorizeBatch l) := by
  constructor
  · simp [categorizeBatch]
  · induction l with
    | nil => exact List.Forall₂.nil
    | cons a rest ih =>
      exact List.Forall₂.cons ⟨rfl, rfl, rfl, rfl, rfl, rfl, rfl, rfl⟩ ih

/-- C9 witness: the frame condition evaluated on a concrete list. -/
theorem claim9_categorizeBatch_frame_w :
    (categorizeBatch [({ title := "x" } : Article)]).length =
      [({ title := "x" } : Article)].length :=
  (claim9_categorizeBatch_frame [{ title := "x" }]).1

/-! ## Lemmas about the score table and Python max -/

theorem maxBySnd_eq_none : ∀ l : List (String × Nat),
    maxBySnd l = none ↔ l = [] := by
  intro l
  cases l with
  | nil => simp [maxBySnd]
  | cons p rest =>
    constructor
    · intro h
      cases hr : maxBySnd rest with
      | none => simp only [maxBySnd, hr] at h; cases h
      | some q =>
        simp only [maxBySnd, hr] at h
        by_cases hlt : p.2 < q.2
        · rw [if_pos hlt] at h; cases h
        · rw [if_neg hlt] at h; cases h
    · intro h; cases h

theorem maxBySnd_mem : ∀ (l : List (String × Nat)) (p : String × Nat),
    maxBySnd l = some p → p ∈ l := by
  intro l
  induction l with
  | nil => intro p h; cases h
  | cons q rest ih =>
    intro p h
    cases hr : maxBySnd rest with
    | none =>
      simp only [maxBySnd, hr] at h
      cases h
      exact List.mem_cons_self _ _
    | some m =>
      simp only [maxBySnd, hr] at h
      by_cases hlt : q.2 < m.2
      · rw [if_pos hlt] at h
        have hpm : p = m := (Option.some.inj h).symm
        subst hpm
        exact List.mem_cons_of_mem _ (ih p hr)
      · rw [if_neg hlt] at h
        have hpq : p = q := (Option.some.inj h).symm
        subst hpq
        exact List.mem_cons_self _ _

theorem maxBySnd_ge : ∀ (l : List (String × Nat)) (p : String × Nat),
    maxBySnd l = some p → ∀ q ∈ l, q.2 ≤ p.2 := by
  intro l
  induction l with
  | nil => intro p h; cases h
  | cons a rest ih =>
    intro p h q hq
    cases hr : maxBySnd rest with
    | none =>
      simp only [maxBySnd, hr] at h
      have hpa : p = a := (Option.some.inj h).symm
      subst hpa
      have : rest = [] := (maxBySnd_eq_none rest).mp hr
      subst this
      rcases List.mem_cons.mp hq with rfl | hq
      · exact Nat.le_refl _
      · cases hq
    | some m =>
      simp only [maxBySnd, hr] at h
      by_cases hlt : a.2 < m.2
      · rw [if_pos hlt] at h
        have hpm : p = m := (Option.some.inj h).symm
        subst hpm
        rcases List.mem_cons.mp hq with rfl | hq
        · exact Nat.le_of_lt hlt
        · exact ih p hr q hq
      · rw [if_neg hlt] at h
        have hpa : p = a := (Option.some.inj h).symm
        subst hpa
        rcases List.mem_cons.mp hq with rfl | hq
        · exact Nat.le_refl _
        · exact Nat.le_trans (ih m hr q hq) (Nat.not_lt.mp hlt)

theorem maxBySnd_first : ∀ (l1 : List (String × Nat)) (p : String × Nat)
    (l2 : List (String × Nat)),
    (∀ q ∈ l1, q.2 < p.2) → (∀ q ∈ l2, q.2 ≤ p.2) →
    maxBySnd (l1 ++ p :: l2) = some p := by
  intro l1
  induction l1 with
  | nil =>
    intro p l2 _ h2
    show maxBySnd (p :: l2) = some p
    cases hr : maxBySnd l2 with
    | none => simp only [maxBySnd, hr]
    | some m =>
      have hm : m ∈ l2 := maxBySnd_mem l2 m hr
      simp only [maxBySnd, hr]
      rw [if_neg (Nat.not_lt.mpr (h2 m hm))]
  | cons a t ih =>
    intro p l2 h1 h2
    show maxBySnd (a :: (t ++ p :: l2)) = some p
    simp only [maxBySnd, ih p l2 (fun q hq => h1 q (List.mem_cons_of_mem _ hq)) h2]
    rw [if_pos (h1 a (List.mem_cons_self _ _))]

theorem mem_scoreEntry_eq (text : String) (c : String) (kws : List String)
    (p : String × Nat) (h : p ∈ scoreEntry text c kws) :
    p = (c, catScore text kws) ∧ scoreEntry text c kws = [p] := by
  by_cases h1 : isExcluded text (exclFor c) = true
  · simp [scoreEntry, h1] at h
  · by_cases h2 : 0 < catScore text kws
    · simp only [scoreEntry, h1, if_false, h2, if_true, Bool.false_eq_true] at h ⊢
      rcases List.mem_singleton.mp h with rfl
      exact ⟨rfl, rfl⟩
    · simp [scoreEntry, h1, h2] at h

theorem scoresList_zero_eq_nil (a : Article)
    (h : ∀ p ∈ category_keywords, catScore (textOf a) p.2 = 0) :
    scoresList a = [] := by
  unfold scoresList
  suffices hgen : ∀ L : List (String × List String),
      (∀ p ∈ L, catScore (textOf a) p.2 = 0) →
      ((L.map fun p => scoreEntry (textOf a) p.1 p.2).flatten = []) from
    hgen _ h
  intro L
  induction L with
  | nil => intro _; rfl
  | cons q rest ih =>
    intro hz
    simp only [List.map_cons, List.flatten_cons]
    rw [List.append_eq_nil]
    constructor
    · have hq := hz q (List.mem_cons_self _ _)
      unfold scoreEntry
      rw [hq]
      by_cases h1 : isExcluded (textOf a) (exclFor q.1) = true
      · rw [if_pos h1]
      · rw [if_neg h1, if_neg (by omega)]
    · exact ih fun p hp => hz p (List.mem_cons_of_mem _ hp)

/-! ## Claim C2: selection rule and threshold -/

/-- C2 counterexample: "inflation" scores exactly 1 for Finance (and for
no other category); the claimed Finance threshold of 1 would return
"Finance", but the code's uniform threshold of 2 returns "General". -/
theorem claim2_threshold_cex :
    sourceOverride ({ title := "inflation" } : Article) = none ∧
    maxBySnd (scoresList ({ title := "inflation" } : Article)) =
      some ("Finance", 1) ∧
    categorize ({ title := "inflation" } : Article) = "General" ∧
    ("General" : String) ≠ "Finance" := by
  exact ⟨by decide, by decide, by decide, by decide⟩

/-- C2 (amended): with no source override, the minimum threshold is 2 for
*every* category (not 1 for Finance/Sports/Politics): if every score is
at most 1 the result is "General"; if the first maximal entry clears 2
its category is returned; that entry is a member attaining the maximum
of the score table; and an article matching zero keywords of every
category is categorized "General". -/
theorem claim2_threshold_amended (a : Article)
    (hov : sourceOverride a = none) :
    ((∀ p ∈ scoresList a, p.2 ≤ 1) → categorize a = "General") ∧
    (∀ p, maxBySnd (scoresList a) = some p → 2 ≤ p.2 →
      categorize a = p.1) ∧
    (∀ p, maxBySnd (scoresList a) = some p →
      p ∈ scoresList a ∧ ∀ q ∈ scoresList a, q.2 ≤ p.2) ∧
    ((∀ p ∈ category_keywords, catScore (textOf a) p.2 = 0) →
      categorize a = "General") := by
  have hcat : categorize a =
      (match maxBySnd (scoresList a) with
       | some p => if 2 ≤ p.2 then p.1 else "General"
       | none => "General") := by
    simp only [categorize, hov]
  refine ⟨?_, ?_, ?_, ?_⟩
  · intro hle
    rw [hcat]
    cases hm : maxBySnd (scoresList a) with
    | none => rfl
    | some p =>
      have hp := maxBySnd_mem _ _ hm
      have h1 : p.2 ≤ 1 := hle p hp
      show (if 2 ≤ p.2 then p.1 else "General") = "General"
      rw [if_neg (by omega)]
  · intro p hm h2
    rw [hcat]
    simp only [hm]
    rw [if_pos h2]
  · intro p hm
    exact ⟨maxBySnd_mem _ _ hm, maxBySnd_ge _ _ hm⟩
  · intro hz
    rw [hcat, scoresList_zero_eq_nil a hz]
    rfl

/-- C2 witness: a keyword-free article is categorized "General". -/
theorem claim2_threshold_amended_w :
    categorize ({ title := "zzz qqq xxyy" } : Article) = "General" :=
  (claim2_threshold_amended { title := "zzz qqq xxyy" } (by decide)).2.2.2
    (by decide)

/-! ## Claim C6: Finance/Business tie handling -/

/-- C6 counterexample: "business company finance bank" scores 2 for
Business and 2 for Finance; no Finance bonus exists, and the tie
resolves to Business (the category earlier in the fixed table order),
not Finance as the claim asserts. -/
theorem claim6_tiebreak_cex :
    sourceOverride ({ title := "business company finance bank" } : Article) =
      none ∧
    ("Business", 2) ∈
      scoresList ({ title := "business company finance bank" } : Article) ∧
    ("Finance", 2) ∈
      scoresList ({ title := "business company finance bank" } : Article) ∧
    categorize ({ title := "business company finance bank" } : Article) =
      "Business" ∧
    ("Business" : String) ≠ "Finance" := by
  exact ⟨by decide, by decide, by decide, by decide, by decide⟩

/-- C6 (amended): no bonus is added to Finance.  With no source override,
whenever Business and Finance attain the same maximal score `s ≥ 2` of
the score table while Technology and Sports (the categories placed
before Business in the fixed table order) stay strictly below it, the
tie resolves in favor of *Business*, the earlier category in iteration
order. -/
theorem claim6_tiebreak_amended (a : Article) (s : Nat)
    (hov : sourceOverride a = none) (hs : 2 ≤ s)
    (hbus : ("Business", s) ∈ scoresList a)
    (_hfin : ("Finance", s) ∈ scoresList a)
    (htech : ∀ p ∈ scoresList a, p.1 = "Technology" → p.2 < s)
    (hsport : ∀ p ∈ scoresList a, p.1 = "Sports" → p.2 < s)
    (hmax : ∀ p ∈ scoresList a, p.2 ≤ s) :
    categorize a = "Business" := by
  have hdec : scoresList a =
      scoreEntry (textOf a) "Technology" (keywordsOf "Technology") ++
      (scoreEntry (textOf a) "Sports" (keywordsOf "Sports") ++
      (scoreEntry (textOf a) "Business" (keywordsOf "Business") ++
      (scoreEntry (textOf a) "Finance" (keywordsOf "Finance") ++
      (scoreEntry (textOf a) "Politics" (keywordsOf "Politics") ++
      (scoreEntry (textOf a) "Entertainment" (keywordsOf "Entertainment") ++
      (scoreEntry (textOf a) "Health" (keywordsOf "Health") ++
      (scoreEntry (textOf a) "Science" (keywordsOf "Science") ++
      (scoreEntry (textOf a) "World" (keywordsOf "World") ++ [])))))))) := rfl
  have hnotc : ∀ (c : String) (kws : List String), c ≠ "Business" →
      ("Business", s) ∉ scoreEntry (textOf a) c kws := by
    intro c kws hc hmem
    have h1 := (mem_scoreEntry_eq _ _ _ _ hmem).1
    rw [Prod.mk.injEq] at h1
    exact hc h1.1.symm
  rw [hdec] at hbus
  rcases List.mem_append.mp hbus with hm | hbus
  · exact absurd hm (hnotc _ _ (by decide))
  rcases List.mem_append.mp hbus with hm | hbus
  · exact absurd hm (hnotc _ _ (by decide))
  rcases List.mem_append.mp hbus with hB | hbus
  · have hE3 := (mem_scoreEntry_eq _ _ _ _ hB).2
    have hdec2 : scoresList a =
        (scoreEntry (textOf a) "Technology" (keywordsOf "Technology") ++
         scoreEntry (textOf a) "Sports" (keywordsOf "Sports")) ++
        ("Business", s) ::
        (scoreEntry (textOf a) "Finance" (keywordsOf "Finance") ++
        (scoreEntry (textOf a) "Politics" (keywordsOf "Politics") ++
        (scoreEntry (textOf a) "Entertainment" (keywordsOf "Entertainment") ++
        (scoreEntry (textOf a) "Health" (keywordsOf "Health") ++
        (scoreEntry (textOf a) "Science" (keywordsOf "Science") ++
        (scoreEntry (textOf a) "World" (keywordsOf "World") ++ [])))))) := by
      rw [hdec, hE3]
      simp [List.append_assoc]
    have hmb : maxBySnd (scoresList a) = some ("Business", s) := by
      rw [hdec2]
      apply maxBySnd_first
      · intro q hq
        rcases List.mem_append.mp hq with hq1 | hq2
        · obtain rfl := (mem_scoreEntry_eq _ _ _ _ hq1).1
          refine htech _ ?_ rfl
          rw [hdec2]
          exact List.mem_append_left _ (List.mem_append.mpr (Or.inl hq1))
        · obtain rfl := (mem_scoreEntry_eq _ _ _ _ hq2).1
          refine hsport _ ?_ rfl
          rw [hdec2]
          exact List.mem_append_left _ (List.mem_append.mpr (Or.inr hq2))
      · intro q hq
        refine hmax q ?_
        rw [hdec2]
        exact List.mem_append_right _ (List.mem_cons_of_mem _ hq)
    simp only [categorize, hov, hmb]
    rw [if_pos hs]
  · exfalso
    rcases List.mem_append.mp hbus with hm | hbus
    · exact hnotc _ _ (by decide) hm
    rcases List.mem_append.mp hbus with hm | hbus
    · exact hnotc _ _ (by decide) hm
    rcases List.mem_append.mp hbus with hm | hbus
    · exact hnotc _ _ (by decide) hm
    rcases List.mem_append.mp hbus with hm | hbus
    · exact hnotc _ _ (by decide) hm
    rcases List.mem_append.mp hbus with hm | hbus
    · exact hnotc _ _ (by decide) hm
    rcases List.mem_append.mp hbus with hm | hbus
    · exact hnotc _ _ (by decide) hm
    · simp at hbus

/-- C6 witness: the amended tie-break at the tied article. -/
theorem claim6_tiebreak_amended_w :
    categorize ({ title := "business company finance bank" } : Article) =
      "Business" :=
  claim6_tiebreak_amended { title := "business company finance bank" } 2
    (by decide) (by decide) (by decide) (by decide) (by decide) (by decide)
    (by decide)

/-! ## Claim C1: the scoring formula -/

theorem wbMatchAt_iff_specAt (text kw : List Char) (hwb : wordBounded kw = true)
    (i : Nat) : wbMatchAt text kw i = true ↔ SpecMatchAt text kw i := by
  rcases kw with _ | ⟨c, ktl⟩
  · simp [wordBounded] at hwb
  · simp only [wordBounded, List.isEmpty_cons, Bool.not_false, Bool.true_and,
      Bool.and_eq_true, List.headD_cons] at hwb
    obtain ⟨hhead, hlastD⟩ := hwb
    have key : (text.drop i).take (c :: ktl).length = c :: ktl →
        ((boundaryAt text i = true ↔ (i = 0 ∨ wordAt text (i - 1) = false)) ∧
         (boundaryAt text (i + (c :: ktl).length) = true ↔
           wordAt text (i + (c :: ktl).length) = false)) := by
      intro hslice
      have hget : ∀ j, j < (c :: ktl).length →
          text.get? (i + j) = (c :: ktl).get? j := by
        intro j hj
        have h1 : ((text.drop i).take (c :: ktl).length).get? j =
            (c :: ktl).get? j := by rw [hslice]
        rwa [List.get?_take hj, List.get?_drop] at h1
      have hw_start : wordAt text i = true := by
        have h0 := hget 0 (by simp)
        rw [Nat.add_zero] at h0
        simp only [wordAt, h0, List.get?]
        exact hhead
      have hw_last : wordAt text (i + ktl.length) = true := by
        have hj := hget ktl.length (by simp)
        have hlast2 : (c :: ktl).get? ktl.length = (c :: ktl).getLast? := by
          rw [List.getLast?_eq_get?]
          simp
        have hsome : ∃ v, (c :: ktl).getLast? = some v := by
          cases hGL : (c :: ktl).getLast? with
          | none =>
            exact absurd hGL (by simp [List.getLast?_eq_getLast_of_ne_nil])
          | some v => exact ⟨v, rfl⟩
        obtain ⟨v, hv⟩ := hsome
        have hvw : isWordChar v = true := by
          have : (c :: ktl).getLastD ' ' = v := by
            rw [List.getLastD_eq_getLast?, hv]
            rfl
          rwa [this] at hlastD
        rw [hlast2, hv] at hj
        simp only [wordAt, hj]
        exact hvw
      constructor
      · cases i with
        | zero => simp [boundaryAt, hw_start]
        | succ j =>
          have hws : wordAt text (j + 1) = true := hw_start
          simp [boundaryAt, hws, Nat.succ_ne_zero, Bool.not_eq_true']
      · have hlen : i + (c :: ktl).length = (i + ktl.length) + 1 := by
          simp [List.length_cons]
          omega
        rw [hlen]
        simp [boundaryAt, hw_last, Bool.not_eq_true']
    constructor
    · intro h
      simp only [wbMatchAt, Bool.and_eq_true, beq_iff_eq] at h
      obtain ⟨⟨hslice, hb1⟩, hb2⟩ := h
      exact ⟨hslice, ((key hslice).1).mp hb1, ((key hslice).2).mp hb2⟩
    · intro h
      obtain ⟨hslice, hc1, hc2⟩ := h
      simp only [wbMatchAt, Bool.and_eq_true, beq_iff_eq]
      exact ⟨⟨hslice, ((key hslice).1).mpr hc1⟩, ((key hslice).2).mpr hc2⟩

theorem reSearchWB_iff_spec (text kw : List Char) (hwb : wordBounded kw = true) :
    reSearchWB text kw = true ↔ SpecWholeWordMatch text kw := by
  unfold reSearchWB SpecWholeWordMatch
  rw [List.any_eq_true]
  constructor
  · rintro ⟨i, hi, hmatch⟩
    exact ⟨i, hi, (wbMatchAt_iff_specAt text kw hwb i).mp hmatch⟩
  · rintro ⟨i, hi, hspec⟩
    exact ⟨i, hi, (wbMatchAt_iff_specAt text kw hwb i).mpr hspec⟩

theorem catScore_eq_specScore (text : String) (kws : List String)
    (h : ∀ kw ∈ kws, wordBounded kw.data = true) :
    catScore text kws = specScore text kws := by
  unfold catScore specScore
  suffices hgen : ∀ (ws : List String),
      (∀ kw ∈ ws, wordBounded kw.data = true) → ∀ n : Nat,
      ws.foldl (fun s kw =>
        s + (if SpecWholeWordMatch text.data kw.data then 1 else 0)) n =
      n + (ws.filter fun kw => reSearchWB text.data kw.data).length by
    rw [hgen kws h 0, Nat.zero_add]
  intro ws
  induction ws with
  | nil => intro _ n; simp
  | cons w rest ih =>
    intro hws n
    have hw := hws w (List.mem_cons_self _ _)
    have hiff := reSearchWB_iff_spec text.data w.data hw
    have ihr := ih fun kw hk => hws kw (List.mem_cons_of_mem _ hk)
    simp only [List.foldl_cons, List.filter_cons]
    by_cases hm : SpecWholeWordMatch text.data w.data
    · have hb : reSearchWB text.data w.data = true := hiff.mpr hm
      rw [if_pos hm, hb, ihr (n + 1)]
      simp only [if_true, List.length_cons]
      omega
    · have hb : reSearchWB text.data w.data = false :=
        Bool.eq_false_iff.mpr fun hc => hm (hiff.mp hc)
      rw [if_neg hm, Nat.add_zero, hb, ihr n]
      simp

/-- C1 counterexample: for the article with title "ai" and empty summary,
the score entering the Categorizer's score table for Technology is 1
(one whole-word match on the combined text), while the claimed
3-per-title-match plus 1-per-combined-match formula yields 4. -/
theorem claim1_scoring_cex :
    ("Technology", 1) ∈ scoresList ({ title := "ai" } : Article) ∧
    catScore (textOf ({ title := "ai" } : Article)) (keywordsOf "Technology")
      = 1 ∧
    claimedScoreC1 ({ title := "ai" } : Article) (keywordsOf "Technology")
      = 4 ∧
    (1 : Nat) ≠ 4 := by
  exact ⟨by decide, by decide, by decide, by decide⟩

/-- C1 (amended): for every article, the Categorizer's score of a category
of the keyword table equals one point per whole-word keyword match
against the combined (lower-cased) title-and-summary text — there is no
3-weighted title component — where whole-word matching is word-boundary
matching: in particular "ai" does not match inside "said" but does match
the standalone word "ai". -/
theorem claim1_scoring_amended (a : Article) (c : String) (kws : List String)
    (hmem : (c, kws) ∈ category_keywords) :
    catScore (textOf a) kws = specScore (textOf a) kws ∧
    ¬ SpecWholeWordMatch "said".data "ai".data ∧
    SpecWholeWordMatch "the ai chip".data "ai".data := by
  refine ⟨?_, by decide, by decide⟩
  apply catScore_eq_specScore
  fin_cases hmem <;> decide

/-- C1 witness: the amended scoring equality evaluated for Technology on
the "ai" article. -/
theorem claim1_scoring_amended_w :
    catScore (textOf ({ title := "ai" } : Article)) (keywordsOf "Technology") =
      specScore (textOf ({ title := "ai" } : Article))
        (keywordsOf "Technology") :=
  (claim1_scoring_amended { title := "ai" } "Technology"
    (keywordsOf "Technology") (by decide)).1

/-! ## Claim C5: sentiment label thresholds -/

/-- C5 counterexample: for polarity 0.1004 (admissible for the external
estimator), the label is computed from the raw polarity ("positive") but
the stored `polarity` field is rounded to 0.1, so the record does *not*
satisfy "label is positive iff the polarity field exceeds 0.1" on its
own fields. -/
theorem claim5_sentiment_cex :
    (analyzeSentiment "x" (251/2500) 0).label = "positive" ∧
    (analyzeSentiment "x" (251/2500) 0).polarity = 1/10 ∧
    ¬(1/10 < (analyzeSentiment "x" (251/2500) 0).polarity) := by
  have hne : ¬("x" : String) = "" := by decide
  have hx : (1:ℚ)/10 < 251/2500 := by norm_num
  have hf : ⌊(251:ℚ)/2500 * 1000⌋ = 100 := by
    rw [Int.floor_eq_iff]
    constructor <;> norm_num
  have hpol : (analyzeSentiment "x" (251/2500) 0).polarity = 1/10 := by
    unfold analyzeSentiment
    rw [if_neg hne]
    show pyRound3 (251/2500) = 1/10
    simp only [pyRound3, hf]
    rw [if_pos (by push_cast; norm_num)]
    push_cast
    norm_num
  refine ⟨?_, hpol, ?_⟩
  · unfold analyzeSentiment
    rw [if_neg hne]
    show (if (1:ℚ)/10 < 251/2500 then "positive"
      else if (251:ℚ)/2500 < -(1/10) then "negative" else "neutral") = "positive"
    rw [if_pos hx]
  · rw [hpol]
    exact lt_irrefl _

/-- C5 (amended): the threshold invariant holds of the *raw* polarity
computed by the estimator, not of the rounded stored field: for
non-empty text the label is "positive" iff the computed polarity exceeds
0.1, "negative" iff it is below -0.1, and "neutral" otherwise, while the
stored polarity field is the computed value rounded to 3 decimals;
empty text yields the zero neutral record. -/
theorem claim5_sentiment_amended (text : String) (pol subj : ℚ)
    (h : text ≠ "") :
    ((analyzeSentiment text pol subj).label = "positive" ↔ 1/10 < pol) ∧
    ((analyzeSentiment text pol subj).label = "negative" ↔ pol < -(1/10)) ∧
    ((analyzeSentiment text pol subj).label = "neutral" ↔
      ¬(1/10 < pol) ∧ ¬(pol < -(1/10))) ∧
    (analyzeSentiment text pol subj).polarity = pyRound3 pol ∧
    analyzeSentiment "" pol subj = ⟨0, 0, "neutral"⟩ := by
  have hlab : (analyzeSentiment text pol subj).label =
      (if 1/10 < pol then "positive"
       else if pol < -(1/10) then "negative" else "neutral") := by
    unfold analyzeSentiment
    rw [if_neg h]
  have hpol : (analyzeSentiment text pol subj).polarity = pyRound3 pol := by
    unfold analyzeSentiment
    rw [if_neg h]
  refine ⟨?_, ?_, ?_, hpol, by unfold analyzeSentiment; rw [if_pos rfl]⟩
  · rw [hlab]
    constructor
    · intro hl
      by_contra h1
      rw [if_neg h1] at hl
      by_cases h2 : pol < -(1/10)
      · rw [if_pos h2] at hl
        exact (by decide : ("negative" : String) ≠ "positive") hl
      · rw [if_neg h2] at hl
        exact (by decide : ("neutral" : String) ≠ "positive") hl
    · intro h1
      rw [if_pos h1]
  · rw [hlab]
    constructor
    · intro hl
      by_cases h1 : 1/10 < pol
      · rw [if_pos h1] at hl
        exact absurd hl (by decide)
      · rw [if_neg h1] at hl
        by_contra h2
        rw [if_neg h2] at hl
        exact (by decide : ("neutral" : String) ≠ "negative") hl
    · intro h2
      have h1 : ¬(1/10 < pol) := by
        intro h1
        have : (1 : ℚ)/10 < -(1/10) := lt_trans h1 h2
        norm_num at this
      rw [if_neg h1, if_pos h2]
  · rw [hlab]
    constructor
    · intro hl
      by_cases h1 : 1/10 < pol
      · rw [if_pos h1] at hl
        exact absurd hl (by decide)
      · by_cases h2 : pol < -(1/10)
        · rw [if_neg h1, if_pos h2] at hl
          exact absurd hl (by decide)
        · exact ⟨h1, h2⟩
    · rintro ⟨h1, h2⟩
      rw [if_neg h1, if_neg h2]

/-- C5 witness: polarity 1 on non-empty text is labelled positive. -/
theorem claim5_sentiment_amended_w :
    (analyzeSentiment "x" 1 0).label = "positive" :=
  ((claim5_sentiment_amended "x" 1 0 (by decide)).1).mpr (by norm_num)

/-! ## Claim C7: query-router priority order -/

/-- C7 counterexample: the code checks top-stories phrases *before*
explicit category mentions, and sentiment phrases *before* trending
phrases — the reverse of the claimed order on both counts. -/
theorem claim7_priority_cex :
    substrIn "top stories".data "top stories technology".data = true ∧
    substrIn "technology".data "top stories technology".data = true ∧
    generateResponse "top stories technology" = Intent.topStories ∧
    Intent.topStories ≠ Intent.category "technology" ∧
    substrIn "sentiment".data "sentiment trending".data = true ∧
    substrIn "trending".data "sentiment trending".data = true ∧
    generateResponse "sentiment trending" = Intent.sentiment ∧
    Intent.sentiment ≠ Intent.trending := by
  exact ⟨by decide, by decide, by decide, by decide, by decide, by decide,
    by decide, by decide⟩

/-- C7 (amended): `_generate_response` dispatches to exactly one handler
in the priority order greeting > help > top-stories phrases >
explicit-category mention > sentiment phrases > trending phrases >
summarize phrases > topic search (when about/find/search occurs and a
non-empty topic is extracted) > count phrases > free-keyword fallback.
In particular an utterance with both a category mention and a
top-stories phrase is a top-stories query, and one with both trending
and sentiment phrases is a sentiment query. -/
theorem claim7_priority_amended (q : String) :
    (containsAny q greetWords = true → generateResponse q = Intent.greeting) ∧
    (containsAny q greetWords = false → containsAny q helpWords = true →
      generateResponse q = Intent.helpIntent) ∧
    (containsAny q greetWords = false → containsAny q helpWords = false →
      containsAny q topStoriesWords = true →
      generateResponse q = Intent.topStories) ∧
    (∀ c, containsAny q greetWords = false → containsAny q helpWords = false →
      containsAny q topStoriesWords = false →
      (categoriesList.find? fun cat => substrIn cat.data q.data) = some c →
      generateResponse q = Intent.category c) ∧
    (containsAny q greetWords = false → containsAny q helpWords = false →
      containsAny q topStoriesWords = false →
      (categoriesList.find? fun cat => substrIn cat.data q.data) = none →
      containsAny q ["sentiment", "feeling", "mood"] = true →
      generateResponse q = Intent.sentiment) ∧
    (containsAny q greetWords = false → containsAny q helpWords = false →
      containsAny q topStoriesWords = false →
      (categoriesList.find? fun cat => substrIn cat.data q.data) = none →
      containsAny q ["sentiment", "feeling", "mood"] = false →
      containsAny q trendWords = true →
      generateResponse q = Intent.trending) ∧
    (containsAny q greetWords = false → containsAny q helpWords = false →
      containsAny q topStoriesWords = false →
      (categoriesList.find? fun cat => substrIn cat.data q.data) = none →
      containsAny q ["sentiment", "feeling", "mood"] = false →
      containsAny q trendWords = false →
      containsAny q ["summarize", "summary", "brief"] = true →
      generateResponse q = Intent.summarize) ∧
    (∀ t, containsAny q greetWords = false → containsAny q helpWords = false →
      containsAny q topStoriesWords = false →
      (categoriesList.find? fun cat => substrIn cat.data q.data) = none →
      containsAny q ["sentiment", "feeling", "mood"] = false →
      containsAny q trendWords = false →
      containsAny q ["summarize", "summary", "brief"] = false →
      containsAny q ["about", "find", "search"] = true →
      extractTopic q = some t → ¬t = "" →
      generateResponse q = Intent.search t) ∧
    (containsAny q greetWords = false → containsAny q helpWords = false →
      containsAny q topStoriesWords = false →
      (categoriesList.find? fun cat => substrIn cat.data q.data) = none →
      containsAny q ["sentiment", "feeling", "mood"] = false →
      containsAny q trendWords = false →
      containsAny q ["summarize", "summary", "brief"] = false →
      (containsAny q ["about", "find", "search"] = false ∨
        extractTopic q = none ∨ extractTopic q = some "") →
      containsAny q countWords = true →
      generateResponse q = Intent.countStats) ∧
    (containsAny q greetWords = false → containsAny q helpWords = false →
      containsAny q topStoriesWords = false →
      (categoriesList.find? fun cat => substrIn cat.data q.data) = none →
      containsAny q ["sentiment", "feeling", "mood"] = false →
      containsAny q trendWords = false →
      containsAny q ["summarize", "summary", "brief"] = false →
      (containsAny q ["about", "find", "search"] = false ∨
        extractTopic q = none ∨ extractTopic q = some "") →
      containsAny q countWords = false →
      generateResponse q = Intent.fallback) := by
  refine ⟨?_, ?_, ?_, ?_, ?_, ?_, ?_, ?_, ?_, ?_⟩
  · intro hg
    simp [generateResponse, hg]
  · intro hg hh
    simp [generateResponse, hg, hh]
  · intro hg hh ht
    simp [generateResponse, hg, hh, ht]
  · intro c hg hh ht hc
    simp [generateResponse, hg, hh, ht, hc]
  · intro hg hh ht hc hs
    simp [generateResponse, hg, hh, ht, hc, hs]
  · intro hg hh ht hc hs htr
    simp [generateResponse, hg, hh, ht, hc, hs, htr]
  · intro hg hh ht hc hs htr hsum
    simp [generateResponse, hg, hh, ht, hc, hs, htr, hsum]
  · intro t hg hh ht hc hs htr hsum hsr hext hne
    simp [generateResponse, hg, hh, ht, hc, hs, htr, hsum, hsr, hext, hne]
  · intro hg hh ht hc hs htr hsum hdisj hcnt
    rcases hdisj with hsr | hext | hext
    · simp [generateResponse, afterSearch, hg, hh, ht, hc, hs, htr, hsum, hsr,
        hcnt]
    · by_cases hsr : containsAny q ["about", "find", "search"] = true
      · simp [generateResponse, afterSearch, hg, hh, ht, hc, hs, htr, hsum,
          hsr, hext, hcnt]
      · simp only [Bool.not_eq_true] at hsr
        simp [generateResponse, afterSearch, hg, hh, ht, hc, hs, htr, hsum,
          hsr, hcnt]
    · by_cases hsr : containsAny q ["about", "find", "search"] = true
      · simp [generateResponse, afterSearch, hg, hh, ht, hc, hs, htr, hsum,
          hsr, hext, hcnt]
      · simp only [Bool.not_eq_true] at hsr
        simp [generateResponse, afterSearch, hg, hh, ht, hc, hs, htr, hsum,
          hsr, hcnt]
  · intro hg hh ht hc hs htr hsum hdisj hcnt
    rcases hdisj with hsr | hext | hext
    · simp [generateResponse, afterSearch, hg, hh, ht, hc, hs, htr, hsum, hsr,
        hcnt]
    · by_cases hsr : containsAny q ["about", "find", "search"] = true
      · simp [generateResponse, afterSearch, hg, hh, ht, hc, hs, htr, hsum,
          hsr, hext, hcnt]
      · simp only [Bool.not_eq_true] at hsr
        simp [generateResponse, afterSearch, hg, hh, ht, hc, hs, htr, hsum,
          hsr, hcnt]
    · by_cases hsr : containsAny q ["about", "find", "search"] = true
      · simp [generateResponse, afterSearch, hg, hh, ht, hc, hs, htr, hsum,
          hsr, hext, hcnt]
      · simp only [Bool.not_eq_true] at hsr
        simp [generateResponse, afterSearch, hg, hh, ht, hc, hs, htr, hsum,
          hsr, hcnt]

/-- C7 witness: a greeting dispatches to the greeting handler. -/
theorem claim7_priority_amended_w :
    generateResponse "hello there" = Intent.greeting :=
  (claim7_priority_amended "hello there").1 (by decide)

end NewsGenie
